import Mathlib

/-!
Verification of the rule-reconciliation core of the eslint-to-oxlint
repository.

The definitions below are a shallow embedding of the TypeScript sources:

* `src/utils/config-parser.ts` — severity normalization
  (`normalizeSeverity`), rule-name normalization
  (`normalizeOxlintRuleName`), and the oxlint rule registry
  (`OxlintRulesRegistry.isSupportedByOxlint` / `isTypeAware`).
* `src/reduce.ts` (the full revision with inherited/redundant/plugin
  analysis) — `getDirectlyDefinedRules`, `getOffRulesFromOverrides`,
  `getPluginPrefix` (here `pluginPrefixOf`), `analyzeConfigPair`,
  `analyzeDirectory` and the ancestor-deduplication phase of
  `generateReport`.

JavaScript strings are modelled by Lean `String`; the anchored
regex-prefix replacements of the source are modelled by explicit
prefix tests on the underlying character lists.  File-system and
child-process effects (config loading, oxlint invocation) are
modelled by passing their results as explicit parameters.
-/

namespace EslintToOxlint

/-! ## Character-list prefix machinery

The source uses anchored regexes such as `^@typescript-eslint\//`.
These are prefix-replacements on the character sequence of the name.
-/

/-- Whether the string `s` begins with `pre`. -/
def beginsWith (s pre : String) : Bool :=
  pre.data.isPrefixOf s.data

/-- Replace the prefix `pre` of `s` by `repl` when `s` starts with
`pre`; otherwise return `s` unchanged.  Models an anchored
`s.replace(/^pre/, repl)`. -/
def replaceStart (s pre repl : String) : String :=
  if beginsWith s pre then ⟨repl.data ++ s.data.drop pre.data.length⟩ else s

/-! ## Severity model and JavaScript values

`Severity` is the three-valued model of `type Severity = "error" |
"warn" | "off"`.  `JSValue` models the dynamically typed inputs
(`unknown`) reaching `normalizeSeverity` and the rule-entry values of
a raw config: numbers, strings, booleans, `null`, `undefined` and
arrays. -/

inductive Severity where
  | off
  | warn
  | error
  deriving DecidableEq, Repr

inductive JSValue where
  | num (n : Int)
  | str (s : String)
  | bool (b : Bool)
  | null
  | undef
  | arr (elems : List JSValue)

/-- Errors thrown by the config parser.  `invalidSeverity v` models
`throw new Error("Unexpected severity: " + v)`, which names the
offending value. -/
inductive ConfigError where
  | invalidSeverity (value : JSValue)

/-- Embedding of `normalizeSeverity` (config-parser.ts): numeric codes
0/1/2, the alternate tokens "allow"/"deny", and the string tokens
"off"/"warn"/"error"; anything else throws `invalidSeverity`. -/
def normalizeSeverity (severity : JSValue) : Except ConfigError Severity :=
  match severity with
  | .num n =>
    if n = 0 then .ok .off
    else if n = 1 then .ok .warn
    else if n = 2 then .ok .error
    else .error (.invalidSeverity (.num n))
  | .str s =>
    if s = "deny" then .ok .error
    else if s = "allow" then .ok .off
    else if s = "off" then .ok .off
    else if s = "warn" then .ok .warn
    else if s = "error" then .ok .error
    else .error (.invalidSeverity (.str s))
  | v => .error (.invalidSeverity v)

/-- The severity inputs accepted by `normalizeSeverity`. -/
def isRecognizedSeverity : JSValue → Bool
  | .num n => n == 0 || n == 1 || n == 2
  | .str s => s == "off" || s == "warn" || s == "error" || s == "allow" || s == "deny"
  | _ => false

/-- Embedding of the local `getSeverity` helper of
`getDirectlyDefinedRules` (reduce.ts): a total mapping that treats
every unrecognized value as "off" and looks into `value[0]` for
arrays. -/
def getSeverity : JSValue → Severity
  | .num n => if n = 2 then .error else if n = 1 then .warn else .off
  | .str s =>
    if s = "error" || s = "2" then .error
    else if s = "warn" || s = "1" then .warn
    else .off
  | .arr (v :: _) => getSeverity v
  | .arr [] => .off
  | .bool _ => .off
  | .null => .off
  | .undef => .off

/-! ## Rule model and configs -/

/-- One lint rule occurrence (`interface ESLintRule`).  The optional
display-only `config` payload is not needed by any claim and is not
modelled. -/
structure ESLintRule where
  name : String
  severity : Severity
  deriving DecidableEq, Repr

/-- One override block of a raw eslint config (`interface
EslintOverride`); only the `rules` record matters to the analysis. -/
structure EslintOverride where
  rules : List (String × JSValue)

/-- A raw eslint config (`interface EslintConfig`): its own `rules`
record and its `overrides` blocks, in file order. -/
structure EslintConfig where
  rules : List (String × JSValue)
  overrides : List EslintOverride

/-! ## Name normalization -/

/-- Rewrite of `ruleName.replace(/^@typescript-eslint\//,
"typescript/")` used when reading raw configs. -/
def tsNormalize (s : String) : String :=
  replaceStart s "@typescript-eslint/" "typescript/"

/-- Rewrite of `name.replace(/^typescript\//, "@typescript-eslint/")`
used to convert a normalized name back to its eslint display form. -/
def toEslintName (s : String) : String :=
  replaceStart s "typescript/" "@typescript-eslint/"

/-- Embedding of `normalizeOxlintRuleName` (config-parser.ts): rewrite
the scoped TypeScript plugin prefix to the plain `typescript/` prefix,
then strip an explicit `eslint/` core-rule namespace prefix. -/
def normalizeOxlintRuleName (ruleName : String) : String :=
  replaceStart (replaceStart ruleName "@typescript-eslint/" "typescript/") "eslint/" ""

/-- The scope-stripped bare name: `normalizedName.split("/")[1]`,
i.e. the segment after the first slash when one exists. -/
def secondSegment (s : String) : Option String :=
  match s.data.dropWhile (fun c => c ≠ '/') with
  | '/' :: t => some ⟨t.takeWhile (fun c => c ≠ '/')⟩
  | _ => none

/-! ## Target rule registry -/

/-- In-memory index over the oxlint rule catalog
(`OxlintRulesRegistry`): the set of supported rule names and the set
of type-aware rule names (the latter models `getTypeAwareRules()`,
whose fetched-or-fallback contents are an input of the run). -/
structure OxlintRulesRegistry where
  ruleNames : List String
  typeAwareRules : List String

/-- Embedding of `OxlintRulesRegistry.isSupportedByOxlint`: the
normalized name, or its scope-stripped bare form, is in the
registry's name set. -/
def isSupportedByOxlint (reg : OxlintRulesRegistry) (ruleName : String) : Bool :=
  let normalizedName := normalizeOxlintRuleName ruleName
  (reg.ruleNames.contains normalizedName) ||
    (match secondSegment normalizedName with
     | some bare => reg.ruleNames.contains bare
     | none => false)

/-- Embedding of `OxlintRulesRegistry.isTypeAware`. -/
def isTypeAware (reg : OxlintRulesRegistry) (ruleName : String) : Bool :=
  reg.typeAwareRules.contains (normalizeOxlintRuleName ruleName)

/-! ## Directly defined rules (reduce.ts, `getDirectlyDefinedRules`)

The source accumulates rules in an insertion-ordered
`Map<string, ESLintRule>` keyed by the normalized rule name;
`mapHas`/`mapSet` model `Map.has`/`Map.set` on the list of entries in
insertion order (`Array.from(map.values())`). -/

def mapHas (m : List ESLintRule) (n : String) : Bool :=
  m.any (fun r => r.name == n)

def mapSet (m : List ESLintRule) (r : ESLintRule) : List ESLintRule :=
  if mapHas m r.name then m.map (fun x => if x.name == r.name then r else x)
  else m ++ [r]

/-- Embedding of `getDirectlyDefinedRules` (reduce.ts): the top-level
`rules` record is taken wholesale (later entries overwriting earlier
ones per normalized name); override-block rules are added only when
the name is not yet present and the severity is not "off". -/
def getDirectlyDefinedRules (rawConfig : EslintConfig) : List ESLintRule :=
  let top := rawConfig.rules.foldl
    (fun m kv => mapSet m ⟨tsNormalize kv.1, getSeverity kv.2⟩) []
  rawConfig.overrides.foldl
    (fun m ov => ov.rules.foldl
      (fun m kv =>
        let n := tsNormalize kv.1
        let sev := getSeverity kv.2
        if !(mapHas m n) && sev ≠ Severity.off then mapSet m ⟨n, sev⟩ else m)
      m)
    top

/-- `Set.add` on a list kept in insertion order. -/
def setAdd (l : List String) (s : String) : List String :=
  if l.contains s then l else l ++ [s]

/-- Insertion-ordered deduplication, modelling collecting a JS `Set`
from a sequence and reading it back with `Array.from`. -/
def setFold (l : List String) : List String :=
  l.foldl setAdd []

/-- The "explicitly off" test of `getOffRulesFromOverrides`:
`severity === "off" || severity === "0" || severity === 0` applied to
`Array.isArray(v) ? v[0] : v`. -/
def isExplicitOffVal (v : JSValue) : Bool :=
  let sev : JSValue := match v with
    | .arr (x :: _) => x
    | .arr [] => .undef
    | x => x
  match sev with
  | .str s => s == "off" || s == "0"
  | .num n => n == 0
  | _ => false

/-- Embedding of `getOffRulesFromOverrides` (reduce.ts): the
normalized names explicitly set to "off" inside override blocks only;
top-level rules are never scanned. -/
def getOffRulesFromOverrides (rawConfig : EslintConfig) : List String :=
  rawConfig.overrides.foldl
    (fun acc ov => ov.rules.foldl
      (fun acc kv => if isExplicitOffVal kv.2 then setAdd acc (tsNormalize kv.1) else acc)
      acc)
    []

/-- Embedding of `getPluginPrefix` (reduce.ts): the plugin scope of a
rule name.  For a name starting with "@" the anchored regexes
`^(@[^\/]+\/[^\/]+)\//` and `^(@[^\/]+)\//` are tried in order; an
unscoped name containing "/" yields its first slash-separated
segment; a core rule has no scope.  The regexes are decomposed into
the slash-separated segments they constrain. -/
def pluginPrefixOf (ruleName : String) : Option String :=
  match ruleName.data with
  | '@' :: rest =>
    let s1 := rest.takeWhile (fun c => c ≠ '/')
    match rest.dropWhile (fun c => c ≠ '/') with
    | '/' :: rest2 =>
      let s2 := rest2.takeWhile (fun c => c ≠ '/')
      let r2 := rest2.dropWhile (fun c => c ≠ '/')
      if s1 ≠ [] ∧ s2 ≠ [] ∧ r2.head? = some '/' then some ⟨'@' :: s1 ++ '/' :: s2⟩
      else if s1 ≠ [] then some ⟨'@' :: s1⟩
      else none
    | _ => none
  | l =>
    if l.contains '/' then some ⟨l.takeWhile (fun c => c ≠ '/')⟩ else none

/-- The plugin scope as used by the grouping loops, which guard with
`if (plugin)`: a JavaScript truthiness test that skips both `null`
and the empty string (the prefix of a name beginning with "/"), so
only non-empty scopes are ever grouped. -/
def pluginPrefixKey (ruleName : String) : Option String :=
  match pluginPrefixOf ruleName with
  | some p => if p = "" then none else some p
  | none => none

/-! ## The reconciliation step (reduce.ts, `analyzeConfigPair`) -/

/-- Per-file analysis outcome (`interface ReduceResult`). -/
structure ReduceSummary where
  totalEslintRules : Nat
  toRemove : Nat
  inheritedToDisable : Nat
  redundantOff : Nat
  deriving DecidableEq, Repr

structure ReduceResult where
  eslintConfigPath : String
  oxlintConfigPath : String
  rulesToRemove : List String
  inheritedRulesToDisable : List String
  redundantOffRules : List String
  unsupportedRules : List String
  pluginsToDisable : List String
  summary : ReduceSummary
  deriving DecidableEq, Repr

/-- The directly defined rules of an optionally present raw config
(`rawConfig ? getDirectlyDefinedRules(rawConfig) : []`). -/
def directRulesOf (rawConfig : Option EslintConfig) : List ESLintRule :=
  match rawConfig with
  | some c => getDirectlyDefinedRules c
  | none => []

/-- The override-off names of an optionally present raw config
(the redundant-off scan runs only `if (rawConfig)`). -/
def offRulesOf (rawConfig : Option EslintConfig) : List String :=
  match rawConfig with
  | some c => getOffRulesFromOverrides c
  | none => []

/-- The oxlint rule map (`oxlintRuleMap`): a `Map` built by inserting
the loaded oxlint rules in order, so a later rule with the same name
overwrites an earlier one. -/
def buildRuleMap (rules : List ESLintRule) : String → Option ESLintRule :=
  rules.foldl (fun m r => fun n => if n = r.name then some r else m n) (fun _ => none)

/-- Whether the paired oxlint rule set covers `name`:
`oxlintRuleMap.get(name)` exists with severity not "off". -/
def oxActive (oxMap : String → Option ESLintRule) (name : String) : Bool :=
  match oxMap name with
  | some r => r.severity ≠ Severity.off
  | none => false

/-- The branch of the direct-rule loop that pushes onto
`rulesToRemove`: skip disabled rules, unsupported rules, type-aware
rules outside type-aware mode; keep the rule (in eslint display form)
when the oxlint config has it enabled. -/
def directRemovable (reg : OxlintRulesRegistry) (oxMap : String → Option ESLintRule)
    (typeAware : Bool) (r : ESLintRule) : Option String :=
  if r.severity = Severity.off then none
  else if !(isSupportedByOxlint reg r.name) then none
  else if !typeAware && isTypeAware reg r.name then none
  else if oxActive oxMap r.name then some (toEslintName r.name)
  else none

/-- The branches of the direct-rule loop that push onto
`unsupportedRules`: an enabled rule whose name the registry does not
support, or a supported (non-skipped) rule the oxlint config has
disabled or absent. -/
def directUnsupported (reg : OxlintRulesRegistry) (oxMap : String → Option ESLintRule)
    (typeAware : Bool) (r : ESLintRule) : Option String :=
  if r.severity = Severity.off then none
  else if !(isSupportedByOxlint reg r.name) then some (toEslintName r.name)
  else if !typeAware && isTypeAware reg r.name then none
  else if oxActive oxMap r.name then none
  else some (toEslintName r.name)

/-- The inherited-rule loop first skips rules whose name is directly
defined and then applies exactly the direct-rule tests. -/
def inheritedRemovable (reg : OxlintRulesRegistry) (oxMap : String → Option ESLintRule)
    (typeAware : Bool) (directRuleNames : List String) (r : ESLintRule) : Option String :=
  if directRuleNames.contains r.name then none
  else directRemovable reg oxMap typeAware r

def inheritedUnsupported (reg : OxlintRulesRegistry) (oxMap : String → Option ESLintRule)
    (typeAware : Bool) (directRuleNames : List String) (r : ESLintRule) : Option String :=
  if directRuleNames.contains r.name then none
  else directUnsupported reg oxMap typeAware r

/-- Body of the redundant-override-off loop for one name from
`getOffRulesFromOverrides`. -/
def redundantOne (reg : OxlintRulesRegistry) (oxMap : String → Option ESLintRule)
    (typeAware : Bool) (ruleName : String) : Option String :=
  if !(isSupportedByOxlint reg ruleName) then none
  else if !typeAware && isTypeAware reg ruleName then none
  else if oxActive oxMap ruleName then some (toEslintName ruleName)
  else none

/-- The enabled rules of the file in eslint display form
(`allEnabledRules` mapped through the display rewrite): directly
defined enabled rules followed by resolved rules that are enabled and
not directly defined. -/
def enabledDisplayNames (directEslintRules : List ESLintRule)
    (resolvedEslintRules : List ESLintRule) : List String :=
  let directRuleNames := directEslintRules.map (fun r => r.name)
  (directEslintRules.filter (fun r => r.severity ≠ Severity.off) ++
      resolvedEslintRules.filter
        (fun r => r.severity ≠ Severity.off && !(directRuleNames.contains r.name))).map
    (fun r => toEslintName r.name)

/-- The plugin-subsumption step of `analyzeConfigPair`: group the
enabled display names `E` and the removable names `A` by plugin scope
(`enabledRulesByPlugin` / `rulesToRemoveByPlugin`, both
insertion-ordered maps of sets, with the `if (plugin)` truthiness
guard of both loops) and keep every scope that has at least one
removable rule and whose removable set has the same size as its
enabled set. -/
def pluginsToDisableOf (E A : List String) : List String :=
  (setFold (E.filterMap pluginPrefixKey)).filter (fun p =>
    let enabledRules := setFold (E.filter (fun d => pluginPrefixKey d == some p))
    let removableRules := setFold (A.filter (fun d => pluginPrefixKey d == some p))
    !removableRules.isEmpty && removableRules.length == enabledRules.length)

/-- Embedding of `analyzeConfigPair` (reduce.ts).  The I/O performed
by the source (loading the raw and resolved eslint configs and the
oxlint `--print-config` output) is replaced by the parameters
`rawConfig`, `resolvedEslintRules` and `oxlintRules`; the two
relative config paths are passed through into the result.  The
single direct-rule loop pushing onto `rulesToRemove` and
`unsupportedRules` is split into one `filterMap` per output list,
which preserves each list's contents and order; likewise for the
inherited-rule loop. -/
def analyzeConfigPair (eslintConfigPath oxlintConfigPath : String)
    (ruleRegistry : OxlintRulesRegistry) (typeAware : Bool)
    (rawConfig : Option EslintConfig)
    (resolvedEslintRules : List ESLintRule)
    (oxlintRules : List ESLintRule) : ReduceResult :=
  let directEslintRules := directRulesOf rawConfig
  let directRuleNames := directEslintRules.map (fun r => r.name)
  let oxMap := buildRuleMap oxlintRules
  let rulesToRemove := directEslintRules.filterMap (directRemovable ruleRegistry oxMap typeAware)
  let unsupportedDirect :=
    directEslintRules.filterMap (directUnsupported ruleRegistry oxMap typeAware)
  let inheritedRulesToDisable := resolvedEslintRules.filterMap
    (inheritedRemovable ruleRegistry oxMap typeAware directRuleNames)
  let unsupportedInherited := resolvedEslintRules.filterMap
    (inheritedUnsupported ruleRegistry oxMap typeAware directRuleNames)
  let unsupportedRules := unsupportedDirect ++ unsupportedInherited
  let redundantOffRules :=
    (offRulesOf rawConfig).filterMap (redundantOne ruleRegistry oxMap typeAware)
  let enabledDisp := enabledDisplayNames directEslintRules resolvedEslintRules
  let allRulesToRemove := rulesToRemove ++ inheritedRulesToDisable
  let pluginsToDisable := pluginsToDisableOf enabledDisp allRulesToRemove
  { eslintConfigPath := eslintConfigPath
    oxlintConfigPath := oxlintConfigPath
    rulesToRemove := rulesToRemove
    inheritedRulesToDisable := inheritedRulesToDisable
    redundantOffRules := redundantOffRules
    unsupportedRules := unsupportedRules
    pluginsToDisable := pluginsToDisable
    summary :=
      { totalEslintRules := directEslintRules.length
        toRemove := rulesToRemove.length
        inheritedToDisable := inheritedRulesToDisable.length
        redundantOff := redundantOffRules.length } }

/-! ## Paths

`generateReport` and `analyzeDirectory` manipulate slash-separated
relative paths with `split("/")`, `join("/")` and `path.join`;
`path.relative(process.cwd(), p)` is modelled as the identity on the
already-relative path strings used throughout. -/

/-- `String.prototype.split` restricted to a single-character
separator: splitting the empty string yields one empty field. -/
def splitChars (sep : Char) : List Char → List (List Char)
  | [] => [[]]
  | c :: rest =>
    if c = sep then [] :: splitChars sep rest
    else
      match splitChars sep rest with
      | s :: ss => (c :: s) :: ss
      | [] => [[c]]

def splitSlash (s : String) : List String :=
  (splitChars '/' s.data).map (fun l => ⟨l⟩)

/-- `parts.join("/")`. -/
def joinSlash : List String → String
  | [] => ""
  | [s] => s
  | s :: rest => s ++ "/" ++ joinSlash rest

/-- `getParentDir` of `generateReport`: drop the final path segment
and rejoin, with `"."` for an empty result (`join("/") || "."`);
this coincides with `path.dirname` on the relative paths in use. -/
def getParentDir (configPath : String) : String :=
  let j := joinSlash (splitSlash configPath).dropLast
  if j = "" then "." else j

/-- `configPath.split("/").length`, the sort key of
`generateReport`. -/
def pathDepth (p : String) : Nat :=
  (splitSlash p).length

/-- `path.join(dirname(c), ".oxlintrc.json")` for a relative config
path `c`. -/
def oxlintPathFor (c : String) : String :=
  let d := getParentDir c
  if d = "." then ".oxlintrc.json" else d ++ "/.oxlintrc.json"

/-! ## Directory aggregation (reduce.ts, `analyzeDirectory`) -/

/-- The file-system and child-process collaborators consumed by
`analyzeDirectory`, passed as explicit functions of the config path:
`hasRulesOrOverrides`, `fs.existsSync` on the paired oxlint path, and
the three loaded inputs of `analyzeConfigPair`. -/
structure DirectoryEnv where
  hasRulesOrOverrides : String → Bool
  oxlintConfigExists : String → Bool
  rawConfigOf : String → Option EslintConfig
  resolvedRulesOf : String → List ESLintRule
  oxlintRulesOf : String → List ESLintRule

structure AnalysisResult where
  results : List ReduceResult
  analyzedOxlintConfigs : List String
  eslintConfigsWithoutOxlint : List String
  unsupportedRulesNotInOxlint : List String
  deriving DecidableEq, Repr

/-- The per-config loop of `analyzeDirectory`: a config without a
same-directory `.oxlintrc.json` is pushed onto
`eslintConfigsWithoutOxlint` and skipped with `continue`; otherwise
its pair is analyzed and recorded. -/
def analyzeLoop (env : DirectoryEnv) (reg : OxlintRulesRegistry) (ta : Bool) :
    List String → List ReduceResult × List String × List String
  | [] => ([], [], [])
  | c :: rest =>
    let acc := analyzeLoop env reg ta rest
    if env.oxlintConfigExists (oxlintPathFor c) then
      (analyzeConfigPair c (oxlintPathFor c) reg ta (env.rawConfigOf c)
          (env.resolvedRulesOf c) (env.oxlintRulesOf c) :: acc.1,
        oxlintPathFor c :: acc.2.1, acc.2.2)
    else
      (acc.1, acc.2.1, c :: acc.2.2)

/-- Stable insertion into a sorted list: the new element goes before
the first element it compares ≤ to, so earlier-listed elements stay
before later equal ones. -/
def stableInsert {α : Type} (le : α → α → Bool) (a : α) : List α → List α
  | [] => [a]
  | b :: bs => if le a b then a :: b :: bs else b :: stableInsert le a bs

/-- A stable comparison sort, modelling `Array.prototype.sort` (which
the JavaScript specification requires to be stable); the algorithm
itself is unspecified there, so a stable insertion sort is used. -/
def stableSort {α : Type} (le : α → α → Bool) : List α → List α
  | [] => []
  | x :: xs => stableInsert le x (stableSort le xs)

/-- Lexicographic string sort, modelling `Array.prototype.sort()` on
the deduplicated unsupported-rule names. -/
def sortStrings (l : List String) : List String :=
  stableSort (fun a b => a ≤ b) l

/-- Embedding of `analyzeDirectory` (reduce.ts): filter the
discovered configs to those with meaningful rules, run the per-config
loop, and collect the deduplicated sorted union of unsupported
rules. -/
def analyzeDirectory (env : DirectoryEnv) (reg : OxlintRulesRegistry) (ta : Bool)
    (eslintConfigs : List String) : AnalysisResult :=
  let configsWithRules := eslintConfigs.filter env.hasRulesOrOverrides
  let acc := analyzeLoop env reg ta configsWithRules
  { results := acc.1
    analyzedOxlintConfigs := acc.2.1
    eslintConfigsWithoutOxlint := acc.2.2
    unsupportedRulesNotInOxlint :=
      sortStrings (setFold (acc.1.foldl (fun a r => a ++ r.unsupportedRules) [])) }

/-! ## Report filtering (reduce.ts, `generateReport`)

Only the ancestor-aware filtering phase of `generateReport` is
modelled: the listings of the rendered report are exactly the
`filteredRulesToRemove` / `filteredInheritedRulesToDisable` lists of
the `filteredResults` array it computes.  `Array.prototype.sort` with
the numeric depth comparator is modelled by the stable `mergeSort`
with the corresponding ≤ test, and `rulesSuggestedByPath`
(a `Map<string, Set<string>>`) by a function from directory paths to
lists read up to membership. -/

/-- One entry of `filteredResults`: the spread original result plus
the two filtered listings. -/
structure FilteredResult where
  base : ReduceResult
  filteredRulesToRemove : List String
  filteredInheritedRulesToDisable : List String
  deriving DecidableEq, Repr

/-- `isRuleFromDisabledPlugin`: the rule's plugin scope is one of the
globally disableable plugins. -/
def ruleFromDisabledPlugin (plugins : List String) (d : String) : Bool :=
  match pluginPrefixOf d with
  | some p => plugins.contains p
  | none => false

/-- The ancestor directory strings enumerated by
`getRulesSuggestedByAncestors`: `parts.slice(0, i).join("/") || "."`
for every `i` from 0 to the number of segments of the config's
directory. -/
def ancestorJoins (configPath : String) : List String :=
  let parts := splitSlash (getParentDir configPath)
  (List.range (parts.length + 1)).map (fun i =>
    let j := joinSlash (parts.take i)
    if j = "" then "." else j)

/-- The union of the suggestion sets recorded at the ancestors of a
config path. -/
def ancestorRulesFor (m : String → List String) (configPath : String) : List String :=
  (ancestorJoins configPath).foldl (fun acc d => acc ++ m d) []

/-- One step of the `filteredResults` map: drop rules of disableable
plugins (`getFilteredRules`) and rules already suggested by an
ancestor directory. -/
def filterOne (plugins : List String) (m : String → List String)
    (r : ReduceResult) : FilteredResult :=
  let anc := ancestorRulesFor m r.eslintConfigPath
  ⟨r,
    (r.rulesToRemove.filter (fun d => !(ruleFromDisabledPlugin plugins d))).filter
      (fun d => !(anc.contains d)),
    (r.inheritedRulesToDisable.filter (fun d => !(ruleFromDisabledPlugin plugins d))).filter
      (fun d => !(anc.contains d))⟩

/-- Recording step: the config's directory now maps to its filtered
suggestions merged with the previously recorded set and the ancestor
set. -/
def recordOne (m : String → List String) (fr : FilteredResult) : String → List String :=
  let configDir := getParentDir fr.base.eslintConfigPath
  let newSet := fr.filteredRulesToRemove ++ fr.filteredInheritedRulesToDisable ++
    m configDir ++ ancestorRulesFor m fr.base.eslintConfigPath
  fun d => if d = configDir then newSet else m d

/-- The fold computing `filteredResults` over the depth-sorted
results, threading `rulesSuggestedByPath`. -/
def processResults (plugins : List String) :
    List ReduceResult → (String → List String) → List FilteredResult
  | [], _ => []
  | r :: rest, m =>
    let fr := filterOne plugins m r
    fr :: processResults plugins rest (recordOne m fr)

/-- `allPluginsToDisable`: the union of the per-file
`pluginsToDisable` sets, read up to membership. -/
def allPluginsToDisable (rs : List ReduceResult) : List String :=
  rs.foldl (fun acc r => acc ++ r.pluginsToDisable) []

/-- The depth sort of `generateReport` (`[...results].sort` by
`split("/").length`, a stable sort). -/
def sortByPathDepth (rs : List ReduceResult) : List ReduceResult :=
  stableSort (fun a b => pathDepth a.eslintConfigPath ≤ pathDepth b.eslintConfigPath) rs

/-- The `filteredResults` array of `generateReport`. -/
def renderFilteredResults (rs : List ReduceResult) : List FilteredResult :=
  processResults (allPluginsToDisable rs) (sortByPathDepth rs) (fun _ => [])

/-- Concrete data for the witnesses: a registry supporting only
`no-console` with no type-aware rules, a config enabling `no-console`
at top level and switching it off in an override, and an oxlint
config that has `no-console` at "warn". -/
def wreg : OxlintRulesRegistry :=
  { ruleNames := ["no-console"], typeAwareRules := [] }

def wcfg : EslintConfig :=
  { rules := [("no-console", .str "error")]
    overrides := [⟨[("no-console", .str "off")]⟩] }

def wox : List ESLintRule := [⟨"no-console", .warn⟩]

/-- Concrete data for the C5 witness: one plugin-scoped rule, enabled
on both sides. -/
def w2reg : OxlintRulesRegistry :=
  { ruleNames := ["react/jsx-key"], typeAwareRules := [] }

def w2cfg : EslintConfig :=
  { rules := [("react/jsx-key", .str "error")], overrides := [] }

def w2ox : List ESLintRule := [⟨"react/jsx-key", .error⟩]

/-- Environment for the C9 witness: every config has meaningful
rules, and only the directory `a` holds an oxlint config. -/
def wenv : DirectoryEnv :=
  { hasRulesOrOverrides := fun _ => true
    oxlintConfigExists := fun p => p == "a/.oxlintrc.json"
    rawConfigOf := fun _ => some wcfg
    resolvedRulesOf := fun _ => []
    oxlintRulesOf := fun _ => wox }

/-- Concrete results for the C8 witness: a root config removing
`no-console` and a child config in a subdirectory that would disable
the inherited `no-console`. -/
def wparent : ReduceResult :=
  { eslintConfigPath := ".eslintrc.js"
    oxlintConfigPath := ".oxlintrc.json"
    rulesToRemove := ["no-console"]
    inheritedRulesToDisable := []
    redundantOffRules := []
    unsupportedRules := []
    pluginsToDisable := []
    summary := { totalEslintRules := 1, toRemove := 1, inheritedToDisable := 0, redundantOff := 0 } }

def wchild : ReduceResult :=
  { eslintConfigPath := "client/.eslintrc.js"
    oxlintConfigPath := "client/.oxlintrc.json"
    rulesToRemove := []
    inheritedRulesToDisable := ["no-console"]
    redundantOffRules := []
    unsupportedRules := []
    pluginsToDisable := []
    summary := { totalEslintRules := 0, toRemove := 0, inheritedToDisable := 1, redundantOff := 0 } }

theorem isPrefixOf_eq_append :
    ∀ (p l : List Char), p.isPrefixOf l = true → p ++ l.drop p.length = l := by
  intro p
  induction p with
  | nil => intro l _; simp
  | cons a as ih =>
    intro l h
    cases l with
    | nil => simp [List.isPrefixOf] at h
    | cons b bs =>
      simp only [List.isPrefixOf, Bool.and_eq_true, beq_iff_eq] at h
      obtain ⟨rfl, h2⟩ := h
      simpa using ih bs h2

theorem isPrefixOf_append_self : ∀ (p t : List Char), p.isPrefixOf (p ++ t) = true := by
  intro p t
  induction p with
  | nil => simp [List.isPrefixOf]
  | cons a as ih => simp [List.isPrefixOf, ih]

theorem not_isPrefixOf_of_head_ne (a b : Char) (as bs : List Char) (h : a ≠ b) :
    (a :: as).isPrefixOf (b :: bs) = false := by
  simp [List.isPrefixOf, h]

/-! ## Facts about the name rewrites -/

theorem tsScoped_not_pre_typescript (t : List Char) :
    ("@typescript-eslint/".data).isPrefixOf ("typescript/".data ++ t) = false :=
  not_isPrefixOf_of_head_ne '@' 't' ("typescript-eslint/".data) ("ypescript/".data ++ t)
    (by decide)

theorem eslintPre_not_pre_typescript (t : List Char) :
    ("eslint/".data).isPrefixOf ("typescript/".data ++ t) = false :=
  not_isPrefixOf_of_head_ne 'e' 't' ("slint/".data) ("ypescript/".data ++ t) (by decide)

/-- A name produced by the `@typescript-eslint/` → `typescript/`
rewrite never begins with `@typescript-eslint/` itself. -/
theorem tsNormalize_not_tsScoped (s : String) :
    beginsWith (tsNormalize s) "@typescript-eslint/" = false := by
  unfold tsNormalize replaceStart
  by_cases h : beginsWith s "@typescript-eslint/" = true
  · simp only [h, if_true]
    exact tsScoped_not_pre_typescript _
  · simp only [Bool.not_eq_true] at h
    simp [h]

/-- On names that do not begin with `@typescript-eslint/` (which is
every name inside `analyzeConfigPair`), the display rewrite
`typescript/` → `@typescript-eslint/` is injective. -/
theorem toEslintName_inj {a b : String}
    (ha : beginsWith a "@typescript-eslint/" = false)
    (hb : beginsWith b "@typescript-eslint/" = false)
    (h : toEslintName a = toEslintName b) : a = b := by
  unfold toEslintName replaceStart at h
  by_cases c1 : beginsWith a "typescript/" = true <;>
    by_cases c2 : beginsWith b "typescript/" = true
  · simp only [c1, c2, if_true] at h
    have hdata : ("@typescript-eslint/".data ++ a.data.drop ("typescript/".data.length))
        = ("@typescript-eslint/".data ++ b.data.drop ("typescript/".data.length)) := by
      have := congrArg String.data h
      simpa using this
    have hdrop := List.append_cancel_left hdata
    have ha2 := isPrefixOf_eq_append _ _ c1
    have hb2 := isPrefixOf_eq_append _ _ c2
    apply String.ext
    rw [← ha2, ← hb2, hdrop]
  · simp only [c1, c2, if_true, Bool.not_eq_true] at h
    rw [if_neg (by simp [c2])] at h
    exfalso
    have : beginsWith b "@typescript-eslint/" = true := by
      unfold beginsWith
      rw [← h]
      simp [isPrefixOf_append_self ("@typescript-eslint/".data) _]
    rw [this] at hb; cases hb
  · simp only [c1, c2, if_true] at h
    rw [if_neg (by simp [c1])] at h
    exfalso
    have : beginsWith a "@typescript-eslint/" = true := by
      unfold beginsWith
      rw [h]
      simp [isPrefixOf_append_self ("@typescript-eslint/".data) _]
    rw [this] at ha; cases ha
  · rw [if_neg (by simp [c1]), if_neg (by simp [c2])] at h
    exact h

/-- `normalizeOxlintRuleName` acts as the identity on a name that
begins with neither rewritten prefix. -/
theorem normalizeOxlintRuleName_fixed {s : String}
    (h1 : beginsWith s "@typescript-eslint/" = false)
    (h2 : beginsWith s "eslint/" = false) :
    normalizeOxlintRuleName s = s := by
  unfold normalizeOxlintRuleName replaceStart
  simp [h1, h2]

/-- When a name begins with `@typescript-eslint/`, normalizing it
strictly shrinks it (19 characters are replaced by 11), so the result
differs from the input. -/
theorem normalize_ne_of_tsScoped {y : String}
    (c1 : beginsWith y "@typescript-eslint/" = true) :
    normalizeOxlintRuleName y ≠ y := by
  have h1 : replaceStart y "@typescript-eslint/" "typescript/"
      = ⟨"typescript/".data ++ y.data.drop ("@typescript-eslint/".data.length)⟩ := by
    unfold replaceStart
    rw [if_pos c1]
  have h2 : beginsWith ⟨"typescript/".data ++ y.data.drop ("@typescript-eslint/".data.length)⟩
      "eslint/" = false := by
    unfold beginsWith
    exact eslintPre_not_pre_typescript _
  have h3 : normalizeOxlintRuleName y
      = ⟨"typescript/".data ++ y.data.drop ("@typescript-eslint/".data.length)⟩ := by
    unfold normalizeOxlintRuleName
    rw [h1]
    unfold replaceStart
    simp only [h2, Bool.false_eq_true, if_false]
  intro h
  rw [h3] at h
  have hlen := congrArg (fun s => s.data.length) h
  have happ := isPrefixOf_eq_append _ _ c1
  have hlen2 := congrArg List.length happ
  simp at hlen hlen2
  omega

/-- When a name does not begin with `@typescript-eslint/` but does
begin with `eslint/`, normalizing strips seven characters, so the
result differs from the input. -/
theorem normalize_ne_of_eslintPre {y : String}
    (c1 : beginsWith y "@typescript-eslint/" = false)
    (c2 : beginsWith y "eslint/" = true) :
    normalizeOxlintRuleName y ≠ y := by
  have h3 : normalizeOxlintRuleName y = ⟨"".data ++ y.data.drop ("eslint/".data.length)⟩ := by
    unfold normalizeOxlintRuleName replaceStart
    simp only [c1, Bool.false_eq_true, if_false, if_pos c2]
  intro h
  rw [h3] at h
  have hlen := congrArg (fun s => s.data.length) h
  have happ := isPrefixOf_eq_append _ _ c2
  have hlen2 := congrArg List.length happ
  simp at hlen hlen2
  omega

/-! ## Characterizations of the per-rule classifiers -/

theorem contains_iff_mem {l : List String} {a : String} :
    l.contains a = true ↔ a ∈ l := by
  simp

theorem directRemovable_eq_some {reg : OxlintRulesRegistry}
    {oxMap : String → Option ESLintRule} {ta : Bool} {r : ESLintRule} {d : String} :
    directRemovable reg oxMap ta r = some d ↔
      (r.severity ≠ Severity.off ∧ isSupportedByOxlint reg r.name = true ∧
        (ta = true ∨ isTypeAware reg r.name = false) ∧
        oxActive oxMap r.name = true ∧ d = toEslintName r.name) := by
  unfold directRemovable
  cases ta <;> split_ifs with h1 h2 h3 h4 <;> simp_all <;> tauto

theorem directUnsupported_eq_some {reg : OxlintRulesRegistry}
    {oxMap : String → Option ESLintRule} {ta : Bool} {r : ESLintRule} {d : String} :
    directUnsupported reg oxMap ta r = some d ↔
      (r.severity ≠ Severity.off ∧ d = toEslintName r.name ∧
        (isSupportedByOxlint reg r.name = false ∨
          ((ta = true ∨ isTypeAware reg r.name = false) ∧
            oxActive oxMap r.name = false))) := by
  unfold directUnsupported
  cases ta <;> split_ifs with h1 h2 h3 h4 <;> simp_all <;> tauto

theorem inheritedRemovable_eq_some {reg : OxlintRulesRegistry}
    {oxMap : String → Option ESLintRule} {ta : Bool} {dn : List String}
    {r : ESLintRule} {d : String} :
    inheritedRemovable reg oxMap ta dn r = some d ↔
      (r.name ∉ dn ∧ directRemovable reg oxMap ta r = some d) := by
  unfold inheritedRemovable
  split_ifs with h <;> simp_all

theorem inheritedUnsupported_eq_some {reg : OxlintRulesRegistry}
    {oxMap : String → Option ESLintRule} {ta : Bool} {dn : List String}
    {r : ESLintRule} {d : String} :
    inheritedUnsupported reg oxMap ta dn r = some d ↔
      (r.name ∉ dn ∧ directUnsupported reg oxMap ta r = some d) := by
  unfold inheritedUnsupported
  split_ifs with h <;> simp_all

theorem redundantOne_eq_some {reg : OxlintRulesRegistry}
    {oxMap : String → Option ESLintRule} {ta : Bool} {n d : String} :
    redundantOne reg oxMap ta n = some d ↔
      (isSupportedByOxlint reg n = true ∧ (ta = true ∨ isTypeAware reg n = false) ∧
        oxActive oxMap n = true ∧ d = toEslintName n) := by
  unfold redundantOne
  cases ta <;> split_ifs with h1 h2 h3 <;> simp_all <;> tauto

/-! ## Fold lemmas for the map/set accumulators -/

theorem foldl_mem_dichotomy {α β : Type} (P : β → Prop) (step : List β → α → List β)
    (hstep : ∀ m a x, x ∈ step m a → x ∈ m ∨ P x) :
    ∀ (l : List α) (m : List β) (x : β), x ∈ l.foldl step m → x ∈ m ∨ P x := by
  intro l
  induction l with
  | nil => intro m x hx; exact Or.inl hx
  | cons a as ih =>
    intro m x hx
    rcases ih (step m a) x hx with h | h
    · exact hstep m a x h
    · exact Or.inr h

theorem mem_mapSet {m : List ESLintRule} {r x : ESLintRule} (h : x ∈ mapSet m r) :
    x ∈ m ∨ x = r := by
  unfold mapSet at h
  split_ifs at h with hc
  · rcases List.mem_map.mp h with ⟨y, hy, hxy⟩
    by_cases hyr : (y.name == r.name) = true
    · right; rw [← hxy]; simp [hyr]
    · left; rw [← hxy]; simp only [hyr, Bool.false_eq_true, if_false]; exact hy
  · rcases List.mem_append.mp h with h | h
    · exact Or.inl h
    · right; simpa using h

/-- Every rule in the directly-defined map carries a name produced by
the `@typescript-eslint/` rewrite, hence one that does not begin with
`@typescript-eslint/`. -/
theorem mem_getDirectlyDefinedRules_name {raw : EslintConfig} {r : ESLintRule}
    (h : r ∈ getDirectlyDefinedRules raw) :
    beginsWith r.name "@typescript-eslint/" = false := by
  have P : ESLintRule → Prop := fun x => beginsWith x.name "@typescript-eslint/" = false
  unfold getDirectlyDefinedRules at h
  have houter := foldl_mem_dichotomy
    (fun x => beginsWith x.name "@typescript-eslint/" = false) _
    (fun m ov x hx => by
      refine foldl_mem_dichotomy
        (fun x => beginsWith x.name "@typescript-eslint/" = false) _
        (fun m2 kv y hy => ?_) ov.rules m x hx
      dsimp only at hy
      split_ifs at hy with hc
      · rcases mem_mapSet hy with h | h
        · exact Or.inl h
        · right; rw [h]; exact tsNormalize_not_tsScoped _
      · exact Or.inl hy)
    raw.overrides _ r h
  rcases houter with hin | hp
  · have htop := foldl_mem_dichotomy
      (fun x => beginsWith x.name "@typescript-eslint/" = false)
      (fun m kv => mapSet m ⟨tsNormalize kv.1, getSeverity kv.2⟩)
      (fun m kv y hy => by
        rcases mem_mapSet hy with h | h
        · exact Or.inl h
        · right; rw [h]; exact tsNormalize_not_tsScoped _)
      raw.rules [] r hin
    rcases htop with hnil | hp
    · cases hnil
    · exact hp
  · exact hp

theorem mem_setAdd_iff {l : List String} {s x : String} :
    x ∈ setAdd l s ↔ x ∈ l ∨ x = s := by
  unfold setAdd
  split_ifs with hc
  · constructor
    · exact Or.inl
    · rintro (h | rfl)
      · exact h
      · exact contains_iff_mem.mp hc
  · simp

/-- Every name collected by the override-off scan is a
`@typescript-eslint/` rewrite image. -/
theorem mem_getOffRulesFromOverrides_name {raw : EslintConfig} {n : String}
    (h : n ∈ getOffRulesFromOverrides raw) :
    beginsWith n "@typescript-eslint/" = false := by
  unfold getOffRulesFromOverrides at h
  have houter := foldl_mem_dichotomy
    (fun x => beginsWith x "@typescript-eslint/" = false) _
    (fun m ov x hx => by
      refine foldl_mem_dichotomy
        (fun x => beginsWith x "@typescript-eslint/" = false) _
        (fun m2 kv y hy => ?_) ov.rules m x hx
      split_ifs at hy with hc
      · rcases mem_setAdd_iff.mp hy with h | h
        · exact Or.inl h
        · right; rw [h]; exact tsNormalize_not_tsScoped _
      · exact Or.inl hy)
    raw.overrides [] n h
  rcases houter with hnil | hp
  · cases hnil
  · exact hp

theorem mem_foldl_setAdd_iff {l acc : List String} {x : String} :
    x ∈ l.foldl setAdd acc ↔ x ∈ acc ∨ x ∈ l := by
  induction l generalizing acc with
  | nil => simp
  | cons a as ih =>
    simp only [List.foldl_cons, ih, mem_setAdd_iff, List.mem_cons]
    tauto

theorem mem_setFold_iff {l : List String} {x : String} :
    x ∈ setFold l ↔ x ∈ l := by
  unfold setFold
  simp [mem_foldl_setAdd_iff]

theorem nodup_setFold (l : List String) : (setFold l).Nodup := by
  have aux : ∀ (l acc : List String), acc.Nodup → (l.foldl setAdd acc).Nodup := by
    intro l
    induction l with
    | nil => intro acc h; exact h
    | cons a as ih =>
      intro acc h
      refine ih (setAdd acc a) ?_
      unfold setAdd
      split_ifs with hc
      · exact h
      · rw [List.nodup_append]
        refine ⟨h, List.nodup_singleton a, ?_⟩
        intro x hx hxa
        simp only [List.mem_singleton] at hxa
        subst hxa
        exact hc (contains_iff_mem.mpr hx)
  exact aux l [] List.nodup_nil

/-! ## Projections of the reconciliation result -/

theorem acp_rulesToRemove (ep op : String) (reg : OxlintRulesRegistry) (ta : Bool)
    (raw : Option EslintConfig) (resolved ox : List ESLintRule) :
    (analyzeConfigPair ep op reg ta raw resolved ox).rulesToRemove
      = (directRulesOf raw).filterMap (directRemovable reg (buildRuleMap ox) ta) := rfl

theorem acp_inherited (ep op : String) (reg : OxlintRulesRegistry) (ta : Bool)
    (raw : Option EslintConfig) (resolved ox : List ESLintRule) :
    (analyzeConfigPair ep op reg ta raw resolved ox).inheritedRulesToDisable
      = resolved.filterMap (inheritedRemovable reg (buildRuleMap ox) ta
          ((directRulesOf raw).map (fun r => r.name))) := rfl

theorem acp_unsupported (ep op : String) (reg : OxlintRulesRegistry) (ta : Bool)
    (raw : Option EslintConfig) (resolved ox : List ESLintRule) :
    (analyzeConfigPair ep op reg ta raw resolved ox).unsupportedRules
      = (directRulesOf raw).filterMap (directUnsupported reg (buildRuleMap ox) ta)
        ++ resolved.filterMap (inheritedUnsupported reg (buildRuleMap ox) ta
            ((directRulesOf raw).map (fun r => r.name))) := rfl

theorem acp_redundantOff (ep op : String) (reg : OxlintRulesRegistry) (ta : Bool)
    (raw : Option EslintConfig) (resolved ox : List ESLintRule) :
    (analyzeConfigPair ep op reg ta raw resolved ox).redundantOffRules
      = (offRulesOf raw).filterMap (redundantOne reg (buildRuleMap ox) ta) := rfl

theorem notTs_of_mem_directRulesOf {raw : Option EslintConfig} {r : ESLintRule}
    (h : r ∈ directRulesOf raw) : beginsWith r.name "@typescript-eslint/" = false := by
  cases raw with
  | none => cases h
  | some c => exact mem_getDirectlyDefinedRules_name h

theorem notTs_of_mem_offRulesOf {raw : Option EslintConfig} {n : String}
    (h : n ∈ offRulesOf raw) : beginsWith n "@typescript-eslint/" = false := by
  cases raw with
  | none => cases h
  | some c => exact mem_getOffRulesFromOverrides_name h

/-! ## Claim C7 — redundant override-offs -/

theorem mem_offFold_inner_iff (kvs : List (String × JSValue)) (acc : List String)
    (n : String) :
    n ∈ kvs.foldl
        (fun acc kv => if isExplicitOffVal kv.2 then setAdd acc (tsNormalize kv.1) else acc)
        acc ↔
      n ∈ acc ∨ ∃ kv ∈ kvs, isExplicitOffVal kv.2 = true ∧ n = tsNormalize kv.1 := by
  induction kvs generalizing acc with
  | nil => simp
  | cons kv rest ih =>
    simp only [List.foldl_cons, ih, List.mem_cons]
    by_cases hc : isExplicitOffVal kv.2 = true
    · simp only [hc, if_true, mem_setAdd_iff]
      constructor
      · rintro ((h | rfl) | h)
        · exact Or.inl h
        · exact Or.inr ⟨kv, Or.inl rfl, hc, rfl⟩
        · rcases h with ⟨kv2, h2, h3⟩
          exact Or.inr ⟨kv2, Or.inr h2, h3⟩
      · rintro (h | ⟨kv2, (rfl | h2), h3, rfl⟩)
        · exact Or.inl (Or.inl h)
        · exact Or.inl (Or.inr rfl)
        · exact Or.inr ⟨kv2, h2, h3, rfl⟩
    · simp only [hc, Bool.false_eq_true, if_false]
      constructor
      · rintro (h | h)
        · exact Or.inl h
        · rcases h with ⟨kv2, h2, h3⟩
          exact Or.inr ⟨kv2, Or.inr h2, h3⟩
      · rintro (h | ⟨kv2, (rfl | h2), h3, rfl⟩)
        · exact Or.inl h
        · exact absurd h3 hc
        · exact Or.inr ⟨kv2, h2, h3, rfl⟩

theorem mem_getOffRulesFromOverrides_iff (c : EslintConfig) (n : String) :
    n ∈ getOffRulesFromOverrides c ↔
      ∃ ov ∈ c.overrides, ∃ kv ∈ ov.rules,
        isExplicitOffVal kv.2 = true ∧ n = tsNormalize kv.1 := by
  unfold getOffRulesFromOverrides
  have aux : ∀ (ovs : List EslintOverride) (acc : List String),
      n ∈ ovs.foldl
          (fun acc ov => ov.rules.foldl
            (fun acc kv =>
              if isExplicitOffVal kv.2 then setAdd acc (tsNormalize kv.1) else acc)
            acc)
          acc ↔
        n ∈ acc ∨ ∃ ov ∈ ovs, ∃ kv ∈ ov.rules,
          isExplicitOffVal kv.2 = true ∧ n = tsNormalize kv.1 := by
    intro ovs
    induction ovs with
    | nil => simp
    | cons ov rest ih =>
      intro acc
      simp only [List.foldl_cons, ih, mem_offFold_inner_iff, List.mem_cons]
      constructor
      · rintro ((h | h) | h)
        · exact Or.inl h
        · rcases h with ⟨kv, h1, h2⟩
          exact Or.inr ⟨ov, Or.inl rfl, kv, h1, h2⟩
        · rcases h with ⟨ov2, h1, h2⟩
          exact Or.inr ⟨ov2, Or.inr h1, h2⟩
      · rintro (h | ⟨ov2, (rfl | h1), h2⟩)
        · exact Or.inl (Or.inl h)
        · exact Or.inl (Or.inr h2)
        · exact Or.inr ⟨ov2, h1, h2⟩
  rw [aux c.overrides []]
  simp

/-- Claim C7: a name enters `redundantOffRules` exactly when it is
explicitly set to "off" inside one of the raw config's override
blocks, the registry supports it, it is not excluded by the type-aware
mode, and the paired oxlint rule set has it present with severity not
"off"; the top-level rules record of the raw config has no influence
on this category, so rules set to "off" only at top level are never
classified redundant. -/
theorem claim_C7_redundant_off_characterization (ep op : String)
    (reg : OxlintRulesRegistry) (ta : Bool) (c : EslintConfig)
    (resolved ox : List ESLintRule) :
    (∀ d, d ∈ (analyzeConfigPair ep op reg ta (some c) resolved ox).redundantOffRules ↔
      ∃ n, n ∈ getOffRulesFromOverrides c ∧
        isSupportedByOxlint reg n = true ∧ (ta = true ∨ isTypeAware reg n = false) ∧
        oxActive (buildRuleMap ox) n = true ∧ d = toEslintName n) ∧
    (∀ n, n ∈ getOffRulesFromOverrides c ↔
      ∃ ov ∈ c.overrides, ∃ kv ∈ ov.rules,
        isExplicitOffVal kv.2 = true ∧ n = tsNormalize kv.1) ∧
    (∀ topRules : List (String × JSValue),
      (analyzeConfigPair ep op reg ta (some ⟨topRules, c.overrides⟩)
          resolved ox).redundantOffRules
        = (analyzeConfigPair ep op reg ta (some c) resolved ox).redundantOffRules) := by
  refine ⟨?_, mem_getOffRulesFromOverrides_iff c, ?_⟩
  · intro d
    rw [acp_redundantOff]
    simp only [List.mem_filterMap, redundantOne_eq_some, offRulesOf]
  · intro topRules
    rw [acp_redundantOff, acp_redundantOff]
    rfl

/-! ## Claim C4 — monotonicity in the type-aware mode -/

/-- Claim C4: for the same inputs, every name in the union of
`rulesToRemove` and `inheritedRulesToDisable` computed with
`typeAware = false` also occurs in that union computed with
`typeAware = true`. -/
theorem claim_C4_typeAware_monotone (ep op : String) (reg : OxlintRulesRegistry)
    (raw : Option EslintConfig) (resolved ox : List ESLintRule) (d : String)
    (h : d ∈ (analyzeConfigPair ep op reg false raw resolved ox).rulesToRemove ++
          (analyzeConfigPair ep op reg false raw resolved ox).inheritedRulesToDisable) :
    d ∈ (analyzeConfigPair ep op reg true raw resolved ox).rulesToRemove ++
          (analyzeConfigPair ep op reg true raw resolved ox).inheritedRulesToDisable := by
  rw [acp_rulesToRemove, acp_inherited] at h ⊢
  rcases List.mem_append.mp h with h | h
  · refine List.mem_append_left _ ?_
    rcases List.mem_filterMap.mp h with ⟨r, hr, hf⟩
    rcases directRemovable_eq_some.mp hf with ⟨h1, h2, _, h4, h5⟩
    exact List.mem_filterMap.mpr
      ⟨r, hr, directRemovable_eq_some.mpr ⟨h1, h2, Or.inl rfl, h4, h5⟩⟩
  · refine List.mem_append_right _ ?_
    rcases List.mem_filterMap.mp h with ⟨r, hr, hf⟩
    rcases inheritedRemovable_eq_some.mp hf with ⟨hd, hf2⟩
    rcases directRemovable_eq_some.mp hf2 with ⟨h1, h2, _, h4, h5⟩
    exact List.mem_filterMap.mpr
      ⟨r, hr, inheritedRemovable_eq_some.mpr
        ⟨hd, directRemovable_eq_some.mpr ⟨h1, h2, Or.inl rfl, h4, h5⟩⟩⟩

/-! ## Claim C2 — severity parsing -/

/-- Claim C2: the severity parser succeeds exactly on the inputs
0, 1, 2, "off", "warn", "error", "allow", "deny", with 0/"off"/"allow"
mapping to Off, 1/"warn" to Warn and 2/"error"/"deny" to Error; every
other input fails with an InvalidSeverity error naming the offending
value. -/
theorem claim_C2_severity_parsing (v : JSValue) :
    (normalizeSeverity v = .ok .off ↔ (v = .num 0 ∨ v = .str "off" ∨ v = .str "allow")) ∧
    (normalizeSeverity v = .ok .warn ↔ (v = .num 1 ∨ v = .str "warn")) ∧
    (normalizeSeverity v = .ok .error ↔ (v = .num 2 ∨ v = .str "error" ∨ v = .str "deny")) ∧
    (isRecognizedSeverity v = false →
      normalizeSeverity v = .error (.invalidSeverity v)) := by
  cases v with
  | num n =>
    simp only [normalizeSeverity, isRecognizedSeverity]
    by_cases h0 : n = 0 <;> by_cases h1 : n = 1 <;> by_cases h2 : n = 2 <;>
      simp_all
  | str s =>
    simp only [normalizeSeverity, isRecognizedSeverity]
    by_cases hd : s = "deny" <;> by_cases ha : s = "allow" <;> by_cases ho : s = "off" <;>
      by_cases hw : s = "warn" <;> by_cases he : s = "error" <;> simp_all
  | bool b => simp [normalizeSeverity, isRecognizedSeverity]
  | null => simp [normalizeSeverity, isRecognizedSeverity]
  | undef => simp [normalizeSeverity, isRecognizedSeverity]
  | arr elems => simp [normalizeSeverity, isRecognizedSeverity]

/-- Witness for C2 at the concrete rejected input "banana". -/
theorem claim_C2_severity_parsing_witness :
    normalizeSeverity (.str "banana") = .error (.invalidSeverity (.str "banana")) :=
  (claim_C2_severity_parsing (JSValue.str "banana")).2.2.2 rfl

/-! ## Claim C3 — idempotence of rule-name normalization -/

/-- Counterexample to claim C3 as stated: on the rule-name string
"eslint/eslint/no-console" one application strips a single "eslint/"
prefix and a second application strips another, so normalization is
not idempotent on all strings. -/
theorem claim_C3_normalize_not_idempotent_counterexample :
    normalizeOxlintRuleName (normalizeOxlintRuleName "eslint/eslint/no-console") ≠
      normalizeOxlintRuleName "eslint/eslint/no-console" := by
  decide

/-- Claim C3, amended: normalization is idempotent exactly on those
rule-name strings whose normalized form does not itself begin with one
of the rewritten prefixes `@typescript-eslint/` or `eslint/` (on every
other string a second application rewrites further). -/
theorem claim_C3_normalize_idempotent_amended (x : String) :
    normalizeOxlintRuleName (normalizeOxlintRuleName x) = normalizeOxlintRuleName x ↔
      (beginsWith (normalizeOxlintRuleName x) "@typescript-eslint/" = false ∧
        beginsWith (normalizeOxlintRuleName x) "eslint/" = false) := by
  by_cases c1 : beginsWith (normalizeOxlintRuleName x) "@typescript-eslint/" = true
  · exact iff_of_false (normalize_ne_of_tsScoped c1) (by simp [c1])
  · simp only [Bool.not_eq_true] at c1
    by_cases c2 : beginsWith (normalizeOxlintRuleName x) "eslint/" = true
    · exact iff_of_false (normalize_ne_of_eslintPre c1 c2) (by simp [c2])
    · simp only [Bool.not_eq_true] at c2
      exact iff_of_true (normalizeOxlintRuleName_fixed c1 c2) ⟨c1, c2⟩

/-! ## Claim C1 — classification of directly defined rules -/

/-- Claim C1: every directly defined rule with severity not "off" is
classified by the reconciliation step as follows.  If the registry
does not support its name it lands in the unsupported list; otherwise,
if type-aware mode is off and the registry marks the rule type-aware,
it is excluded from all four output categories; otherwise it lands in
`rulesToRemove` when the paired oxlint rule set has the name enabled,
and in the unsupported list when the name is absent there or disabled.
Rules are recorded under their eslint display name
(`toEslintName r.name`).  The hypothesis on `resolved` records that
the resolved rules were produced by `loadESLintConfig`, which rewrites
every `@typescript-eslint/` prefix away. -/
theorem claim_C1_direct_rule_classification (ep op : String)
    (reg : OxlintRulesRegistry) (ta : Bool) (raw : Option EslintConfig)
    (resolved ox : List ESLintRule)
    (hres : ∀ r' ∈ resolved, beginsWith r'.name "@typescript-eslint/" = false)
    (r : ESLintRule) (hr : r ∈ directRulesOf raw) (hsev : r.severity ≠ Severity.off) :
    (isSupportedByOxlint reg r.name = false →
      toEslintName r.name ∈ (analyzeConfigPair ep op reg ta raw resolved ox).unsupportedRules) ∧
    (isSupportedByOxlint reg r.name = true → ta = false → isTypeAware reg r.name = true →
      toEslintName r.name ∉ (analyzeConfigPair ep op reg ta raw resolved ox).rulesToRemove ∧
      toEslintName r.name ∉
        (analyzeConfigPair ep op reg ta raw resolved ox).inheritedRulesToDisable ∧
      toEslintName r.name ∉ (analyzeConfigPair ep op reg ta raw resolved ox).unsupportedRules ∧
      toEslintName r.name ∉
        (analyzeConfigPair ep op reg ta raw resolved ox).redundantOffRules) ∧
    (isSupportedByOxlint reg r.name = true → (ta = true ∨ isTypeAware reg r.name = false) →
      oxActive (buildRuleMap ox) r.name = true →
      toEslintName r.name ∈ (analyzeConfigPair ep op reg ta raw resolved ox).rulesToRemove) ∧
    (isSupportedByOxlint reg r.name = true → (ta = true ∨ isTypeAware reg r.name = false) →
      oxActive (buildRuleMap ox) r.name = false →
      toEslintName r.name ∈
        (analyzeConfigPair ep op reg ta raw resolved ox).unsupportedRules) := by
  have hrnotts := notTs_of_mem_directRulesOf hr
  refine ⟨?_, ?_, ?_, ?_⟩
  · intro hsup
    rw [acp_unsupported]
    exact List.mem_append_left _ (List.mem_filterMap.mpr
      ⟨r, hr, directUnsupported_eq_some.mpr ⟨hsev, rfl, Or.inl hsup⟩⟩)
  · intro hsup hta htw
    refine ⟨?_, ?_, ?_, ?_⟩
    · rw [acp_rulesToRemove]
      intro hmem
      rcases List.mem_filterMap.mp hmem with ⟨r2, hr2, hf⟩
      rcases directRemovable_eq_some.mp hf with ⟨_, _, hpass, _, hd⟩
      have hname := toEslintName_inj hrnotts (notTs_of_mem_directRulesOf hr2) hd
      rcases hpass with h | h
      · rw [hta] at h; cases h
      · rw [← hname] at h; rw [htw] at h; cases h
    · rw [acp_inherited]
      intro hmem
      rcases List.mem_filterMap.mp hmem with ⟨r2, hr2, hf⟩
      rcases inheritedRemovable_eq_some.mp hf with ⟨hnd, hf2⟩
      rcases directRemovable_eq_some.mp hf2 with ⟨_, _, _, _, hd⟩
      have hname := toEslintName_inj hrnotts (hres r2 hr2) hd
      exact hnd (hname ▸ List.mem_map.mpr ⟨r, hr, rfl⟩)
    · rw [acp_unsupported]
      intro hmem
      rcases List.mem_append.mp hmem with hm | hm
      · rcases List.mem_filterMap.mp hm with ⟨r2, hr2, hf⟩
        rcases directUnsupported_eq_some.mp hf with ⟨_, hd, hcase⟩
        have hname := toEslintName_inj hrnotts (notTs_of_mem_directRulesOf hr2) hd
        rcases hcase with hns | ⟨hpass, _⟩
        · rw [← hname, hsup] at hns; cases hns
        · rcases hpass with h | h
          · rw [hta] at h; cases h
          · rw [← hname, htw] at h; cases h
      · rcases List.mem_filterMap.mp hm with ⟨r2, hr2, hf⟩
        rcases inheritedUnsupported_eq_some.mp hf with ⟨hnd, hf2⟩
        rcases directUnsupported_eq_some.mp hf2 with ⟨_, hd, _⟩
        have hname := toEslintName_inj hrnotts (hres r2 hr2) hd
        exact hnd (hname ▸ List.mem_map.mpr ⟨r, hr, rfl⟩)
    · rw [acp_redundantOff]
      intro hmem
      rcases List.mem_filterMap.mp hmem with ⟨n, hn, hf⟩
      rcases redundantOne_eq_some.mp hf with ⟨_, hpass, _, hd⟩
      have hname := toEslintName_inj hrnotts (notTs_of_mem_offRulesOf hn) hd
      rcases hpass with h | h
      · rw [hta] at h; cases h
      · rw [← hname, htw] at h; cases h
  · intro hsup hpass hact
    rw [acp_rulesToRemove]
    exact List.mem_filterMap.mpr
      ⟨r, hr, directRemovable_eq_some.mpr ⟨hsev, hsup, hpass, hact, rfl⟩⟩
  · intro hsup hpass hact
    rw [acp_unsupported]
    exact List.mem_append_left _ (List.mem_filterMap.mpr
      ⟨r, hr, directUnsupported_eq_some.mpr ⟨hsev, rfl, Or.inr ⟨hpass, hact⟩⟩⟩)

/-- Witness for C1: at the concrete inputs above, the enabled,
supported and oxlint-covered rule `no-console` lands in
`rulesToRemove`. -/
theorem claim_C1_direct_rule_classification_witness :
    toEslintName "no-console" ∈
      (analyzeConfigPair "p" "q" wreg true (some wcfg) [] wox).rulesToRemove :=
  (claim_C1_direct_rule_classification "p" "q" wreg true (some wcfg) [] wox
      (by simp) ⟨"no-console", .error⟩ (by decide) (by decide)).2.2.1
    (by decide) (Or.inl rfl) (by decide)

/-! ## Claim C6 — category disjointness -/

/-- Claim C6: within one file's analysis, a rule name occurs in at
most one of `rulesToRemove`, `inheritedRulesToDisable` and
`unsupportedRules`, while `redundantOffRules` is independent and can
contain a name that also occurs in another category (shown here at a
concrete input where `no-console` is both removable and redundantly
switched off in an override).  The hypothesis on `resolved` records
that resolved rule names come out of the loader's
`@typescript-eslint/` rewrite. -/
theorem claim_C6_category_disjointness :
    (∀ (ep op : String) (reg : OxlintRulesRegistry) (ta : Bool)
        (raw : Option EslintConfig) (resolved ox : List ESLintRule),
      (∀ r' ∈ resolved, beginsWith r'.name "@typescript-eslint/" = false) →
      ∀ d,
        ¬(d ∈ (analyzeConfigPair ep op reg ta raw resolved ox).rulesToRemove ∧
          d ∈ (analyzeConfigPair ep op reg ta raw resolved ox).inheritedRulesToDisable) ∧
        ¬(d ∈ (analyzeConfigPair ep op reg ta raw resolved ox).rulesToRemove ∧
          d ∈ (analyzeConfigPair ep op reg ta raw resolved ox).unsupportedRules) ∧
        ¬(d ∈ (analyzeConfigPair ep op reg ta raw resolved ox).inheritedRulesToDisable ∧
          d ∈ (analyzeConfigPair ep op reg ta raw resolved ox).unsupportedRules)) ∧
    ("no-console" ∈
        (analyzeConfigPair "p" "q" wreg true (some wcfg) [] wox).redundantOffRules ∧
      "no-console" ∈
        (analyzeConfigPair "p" "q" wreg true (some wcfg) [] wox).rulesToRemove) := by
  constructor
  · intro ep op reg ta raw resolved ox hres d
    refine ⟨?_, ?_, ?_⟩
    · rintro ⟨ha, hb⟩
      rw [acp_rulesToRemove] at ha
      rw [acp_inherited] at hb
      rcases List.mem_filterMap.mp ha with ⟨r1, hr1, hf1⟩
      rcases directRemovable_eq_some.mp hf1 with ⟨_, _, _, _, hd1⟩
      rcases List.mem_filterMap.mp hb with ⟨r2, hr2, hf2⟩
      rcases inheritedRemovable_eq_some.mp hf2 with ⟨hnd, hf2b⟩
      rcases directRemovable_eq_some.mp hf2b with ⟨_, _, _, _, hd2⟩
      have hname := toEslintName_inj (notTs_of_mem_directRulesOf hr1) (hres r2 hr2)
        (hd1 ▸ hd2)
      exact hnd (hname ▸ List.mem_map.mpr ⟨r1, hr1, rfl⟩)
    · rintro ⟨ha, hc⟩
      rw [acp_rulesToRemove] at ha
      rw [acp_unsupported] at hc
      rcases List.mem_filterMap.mp ha with ⟨r1, hr1, hf1⟩
      rcases directRemovable_eq_some.mp hf1 with ⟨_, hsup1, _, hact1, hd1⟩
      rcases List.mem_append.mp hc with hm | hm
      · rcases List.mem_filterMap.mp hm with ⟨r2, hr2, hf2⟩
        rcases directUnsupported_eq_some.mp hf2 with ⟨_, hd2, hcase⟩
        have hname := toEslintName_inj (notTs_of_mem_directRulesOf hr1)
          (notTs_of_mem_directRulesOf hr2) (hd1 ▸ hd2)
        rcases hcase with hns | ⟨_, hact2⟩
        · rw [← hname, hsup1] at hns; cases hns
        · rw [← hname, hact1] at hact2; cases hact2
      · rcases List.mem_filterMap.mp hm with ⟨r2, hr2, hf2⟩
        rcases inheritedUnsupported_eq_some.mp hf2 with ⟨hnd, hf2b⟩
        rcases directUnsupported_eq_some.mp hf2b with ⟨_, hd2, _⟩
        have hname := toEslintName_inj (notTs_of_mem_directRulesOf hr1) (hres r2 hr2)
          (hd1 ▸ hd2)
        exact hnd (hname ▸ List.mem_map.mpr ⟨r1, hr1, rfl⟩)
    · rintro ⟨hb, hc⟩
      rw [acp_inherited] at hb
      rw [acp_unsupported] at hc
      rcases List.mem_filterMap.mp hb with ⟨r1, hr1, hf1⟩
      rcases inheritedRemovable_eq_some.mp hf1 with ⟨hnd1, hf1b⟩
      rcases directRemovable_eq_some.mp hf1b with ⟨_, hsup1, _, hact1, hd1⟩
      rcases List.mem_append.mp hc with hm | hm
      · rcases List.mem_filterMap.mp hm with ⟨r2, hr2, hf2⟩
        rcases directUnsupported_eq_some.mp hf2 with ⟨_, hd2, _⟩
        have hname := toEslintName_inj (hres r1 hr1)
          (notTs_of_mem_directRulesOf hr2) (hd1 ▸ hd2)
        exact hnd1 (hname ▸ List.mem_map.mpr ⟨r2, hr2, rfl⟩)
      · rcases List.mem_filterMap.mp hm with ⟨r2, hr2, hf2⟩
        rcases inheritedUnsupported_eq_some.mp hf2 with ⟨_, hf2b⟩
        rcases directUnsupported_eq_some.mp hf2b with ⟨_, hd2, hcase⟩
        have hname := toEslintName_inj (hres r1 hr1) (hres r2 hr2) (hd1 ▸ hd2)
        rcases hcase with hns | ⟨_, hact2⟩
        · rw [← hname, hsup1] at hns; cases hns
        · rw [← hname, hact1] at hact2; cases hact2
  · exact ⟨by decide, by decide⟩

/-- Witness for C6 at the concrete inputs of `wreg`/`wcfg`/`wox`. -/
theorem claim_C6_category_disjointness_witness :
    ¬("no-console" ∈
        (analyzeConfigPair "p" "q" wreg true (some wcfg) [] wox).rulesToRemove ∧
      "no-console" ∈
        (analyzeConfigPair "p" "q" wreg true (some wcfg) [] wox).inheritedRulesToDisable) :=
  (claim_C6_category_disjointness.1 "p" "q" wreg true (some wcfg) [] wox
    (by simp) "no-console").1

/-! ## Claim C5 — all-or-nothing plugin subsumption -/

theorem acp_pluginsToDisable (ep op : String) (reg : OxlintRulesRegistry) (ta : Bool)
    (raw : Option EslintConfig) (resolved ox : List ESLintRule) :
    (analyzeConfigPair ep op reg ta raw resolved ox).pluginsToDisable
      = pluginsToDisableOf (enabledDisplayNames (directRulesOf raw) resolved)
          ((directRulesOf raw).filterMap (directRemovable reg (buildRuleMap ox) ta) ++
            resolved.filterMap (inheritedRemovable reg (buildRuleMap ox) ta
              ((directRulesOf raw).map (fun r => r.name)))) := rfl

/-- Every name in `rulesToRemove` or `inheritedRulesToDisable` is the
display name of one of the file's enabled rules. -/
theorem mem_allRemovable_enabled {reg : OxlintRulesRegistry}
    {oxMap : String → Option ESLintRule} {ta : Bool} {raw : Option EslintConfig}
    {resolved : List ESLintRule} {d : String}
    (h : d ∈ (directRulesOf raw).filterMap (directRemovable reg oxMap ta) ++
          resolved.filterMap (inheritedRemovable reg oxMap ta
            ((directRulesOf raw).map (fun r => r.name)))) :
    d ∈ enabledDisplayNames (directRulesOf raw) resolved := by
  unfold enabledDisplayNames
  rcases List.mem_append.mp h with h | h
  · rcases List.mem_filterMap.mp h with ⟨r, hr, hf⟩
    rcases directRemovable_eq_some.mp hf with ⟨hsev, _, _, _, hd⟩
    exact List.mem_map.mpr
      ⟨r, List.mem_append_left _ (List.mem_filter.mpr ⟨hr, by simp [hsev]⟩), hd.symm⟩
  · rcases List.mem_filterMap.mp h with ⟨r, hr, hf⟩
    rcases inheritedRemovable_eq_some.mp hf with ⟨hnd, hf2⟩
    rcases directRemovable_eq_some.mp hf2 with ⟨hsev, _, _, _, hd⟩
    exact List.mem_map.mpr
      ⟨r, List.mem_append_right _ (List.mem_filter.mpr ⟨hr, by simp [hsev, hnd]⟩), hd.symm⟩

/-- The size-comparison test of the plugin loop is equivalent to the
all-or-nothing property, given that the removable names are a subset
of the enabled display names. -/
theorem pluginCond_iff {E A : List String} {p : String} (hsub : ∀ d ∈ A, d ∈ E) :
    ((!(setFold (A.filter (fun d => pluginPrefixKey d == some p))).isEmpty &&
        (setFold (A.filter (fun d => pluginPrefixKey d == some p))).length ==
          (setFold (E.filter (fun d => pluginPrefixKey d == some p))).length) = true) ↔
      ((∃ d ∈ A, pluginPrefixKey d = some p) ∧
        (∀ d ∈ E, pluginPrefixKey d = some p → d ∈ A)) := by
  have hFsub : (setFold (A.filter (fun d => pluginPrefixKey d == some p))).toFinset ⊆
      (setFold (E.filter (fun d => pluginPrefixKey d == some p))).toFinset := by
    intro x hx
    rw [List.mem_toFinset] at hx ⊢
    have hx2 := mem_setFold_iff.mp hx
    exact mem_setFold_iff.mpr (List.mem_filter.mpr
      ⟨hsub x (List.mem_filter.mp hx2).1, (List.mem_filter.mp hx2).2⟩)
  constructor
  · intro hc
    rw [Bool.and_eq_true, Bool.not_eq_true', beq_iff_eq] at hc
    obtain ⟨hne, hlen⟩ := hc
    constructor
    · rcases hem : setFold (A.filter (fun d => pluginPrefixKey d == some p)) with _ | ⟨a, as⟩
      · rw [hem] at hne; simp at hne
      · have ha : a ∈ setFold (A.filter (fun d => pluginPrefixKey d == some p)) := by
          rw [hem]; exact List.mem_cons_self a as
        have := List.mem_filter.mp (mem_setFold_iff.mp ha)
        exact ⟨a, this.1, by simpa using this.2⟩
    · intro d hdE hdp
      have hcard : (setFold (E.filter (fun d => pluginPrefixKey d == some p))).toFinset.card ≤
          (setFold (A.filter (fun d => pluginPrefixKey d == some p))).toFinset.card := by
        rw [List.toFinset_card_of_nodup (nodup_setFold _),
          List.toFinset_card_of_nodup (nodup_setFold _), hlen]
      have hFeq := Finset.eq_of_subset_of_card_le hFsub hcard
      have hdIn : d ∈ (setFold (E.filter (fun d => pluginPrefixKey d == some p))).toFinset := by
        rw [List.mem_toFinset]
        exact mem_setFold_iff.mpr (List.mem_filter.mpr ⟨hdE, by simp [hdp]⟩)
      rw [← hFeq, List.mem_toFinset] at hdIn
      exact (List.mem_filter.mp (mem_setFold_iff.mp hdIn)).1
  · rintro ⟨⟨d0, hd0A, hd0p⟩, hall⟩
    rw [Bool.and_eq_true, Bool.not_eq_true', beq_iff_eq]
    have hd0rm : d0 ∈ setFold (A.filter (fun d => pluginPrefixKey d == some p)) :=
      mem_setFold_iff.mpr (List.mem_filter.mpr ⟨hd0A, by simp [hd0p]⟩)
    constructor
    · rcases hem : setFold (A.filter (fun d => pluginPrefixKey d == some p)) with _ | ⟨a, as⟩
      · rw [hem] at hd0rm; cases hd0rm
      · simp
    · have hFsup : (setFold (E.filter (fun d => pluginPrefixKey d == some p))).toFinset ⊆
          (setFold (A.filter (fun d => pluginPrefixKey d == some p))).toFinset := by
        intro x hx
        rw [List.mem_toFinset] at hx ⊢
        have hx2 := List.mem_filter.mp (mem_setFold_iff.mp hx)
        refine mem_setFold_iff.mpr (List.mem_filter.mpr ⟨?_, hx2.2⟩)
        exact hall x hx2.1 (by simpa using hx2.2)
      have hFeq := Finset.Subset.antisymm hFsub hFsup
      rw [← List.toFinset_card_of_nodup (nodup_setFold
          (A.filter (fun d => pluginPrefixKey d == some p))),
        ← List.toFinset_card_of_nodup (nodup_setFold
          (E.filter (fun d => pluginPrefixKey d == some p))), hFeq]

/-- Claim C5: a plugin scope occurs in `pluginsToDisable` exactly when
the file has at least one enabled rule under that scope and every
enabled rule under that scope (directly defined or inherited) is in
the removable-or-inherited-removable set; in particular one enabled,
non-removable rule under a scope keeps the scope out of
`pluginsToDisable`. -/
theorem claim_C5_plugin_subsumption (ep op : String) (reg : OxlintRulesRegistry)
    (ta : Bool) (raw : Option EslintConfig) (resolved ox : List ESLintRule) (p : String) :
    p ∈ (analyzeConfigPair ep op reg ta raw resolved ox).pluginsToDisable ↔
      ((∃ d ∈ enabledDisplayNames (directRulesOf raw) resolved,
          pluginPrefixKey d = some p) ∧
        (∀ d ∈ enabledDisplayNames (directRulesOf raw) resolved,
          pluginPrefixKey d = some p →
            d ∈ (analyzeConfigPair ep op reg ta raw resolved ox).rulesToRemove ∨
            d ∈ (analyzeConfigPair ep op reg ta raw resolved ox).inheritedRulesToDisable)) := by
  rw [acp_pluginsToDisable, acp_rulesToRemove, acp_inherited]
  simp only [pluginsToDisableOf, List.mem_filter]
  rw [pluginCond_iff (fun d hd => mem_allRemovable_enabled hd)]
  constructor
  · rintro ⟨hkey, hA, hall⟩
    refine ⟨?_, fun d hdE hdp => List.mem_append.mp (hall d hdE hdp)⟩
    rcases List.mem_filterMap.mp (mem_setFold_iff.mp hkey) with ⟨d, hdE, hdp⟩
    exact ⟨d, hdE, hdp⟩
  · rintro ⟨⟨d0, hd0E, hd0p⟩, hall⟩
    have hd0A := List.mem_append.mpr (hall d0 hd0E hd0p)
    exact ⟨mem_setFold_iff.mpr (List.mem_filterMap.mpr ⟨d0, hd0E, hd0p⟩),
      ⟨d0, hd0A, hd0p⟩, fun d hdE hdp => List.mem_append.mpr (hall d hdE hdp)⟩

/-- Witness for the amended C3 at a concrete input whose normalized
form carries no further prefix. -/
theorem claim_C3_normalize_idempotent_amended_witness :
    normalizeOxlintRuleName (normalizeOxlintRuleName "eslint/no-console")
      = normalizeOxlintRuleName "eslint/no-console" :=
  (claim_C3_normalize_idempotent_amended "eslint/no-console").mpr (by decide)

/-- Witness for C4 at the concrete inputs of `wreg`/`wcfg`/`wox`. -/
theorem claim_C4_typeAware_monotone_witness :
    "no-console" ∈ (analyzeConfigPair "p" "q" wreg true (some wcfg) [] wox).rulesToRemove ++
      (analyzeConfigPair "p" "q" wreg true (some wcfg) [] wox).inheritedRulesToDisable :=
  claim_C4_typeAware_monotone "p" "q" wreg (some wcfg) [] wox "no-console" (by decide)

/-- Witness for C7: at the concrete inputs of `wreg`/`wcfg`/`wox` the
override-off rule `no-console` is classified redundant. -/
theorem claim_C7_redundant_off_characterization_witness :
    "no-console" ∈ (analyzeConfigPair "p" "q" wreg true (some wcfg) [] wox).redundantOffRules :=
  ((claim_C7_redundant_off_characterization "p" "q" wreg true wcfg [] wox).1
      "no-console").mpr
    ⟨"no-console", by decide, by decide, Or.inl rfl, by decide, by decide⟩

/-- Witness for C5: with every enabled `react`-scoped rule removable,
the `react` scope is fully disableable. -/
theorem claim_C5_plugin_subsumption_witness :
    "react" ∈ (analyzeConfigPair "p" "q" w2reg true (some w2cfg) [] w2ox).pluginsToDisable :=
  (claim_C5_plugin_subsumption "p" "q" w2reg true (some w2cfg) [] w2ox "react").mpr
    (by decide)

/-! ## Claim C10 — summary tallies -/

/-- Claim C10: in every result of the reconciliation step, the summary
tallies equal the lengths of the corresponding lists of the same
result, and `totalEslintRules` is the number of directly defined rules
considered for the file. -/
theorem claim_C10_summary_tallies (eslintConfigPath oxlintConfigPath : String)
    (reg : OxlintRulesRegistry) (typeAware : Bool) (rawConfig : Option EslintConfig)
    (resolvedEslintRules oxlintRules : List ESLintRule) :
    let res := analyzeConfigPair eslintConfigPath oxlintConfigPath reg typeAware
      rawConfig resolvedEslintRules oxlintRules
    res.summary.toRemove = res.rulesToRemove.length ∧
    res.summary.inheritedToDisable = res.inheritedRulesToDisable.length ∧
    res.summary.redundantOff = res.redundantOffRules.length ∧
    res.summary.totalEslintRules = (directRulesOf rawConfig).length :=
  ⟨rfl, rfl, rfl, rfl⟩

/-! ## Claim C9 — configs without a paired target config -/

theorem analyzeDirectory_results (env : DirectoryEnv) (reg : OxlintRulesRegistry)
    (ta : Bool) (eslintConfigs : List String) :
    (analyzeDirectory env reg ta eslintConfigs).results
      = (analyzeLoop env reg ta (eslintConfigs.filter env.hasRulesOrOverrides)).1 := rfl

theorem analyzeDirectory_without (env : DirectoryEnv) (reg : OxlintRulesRegistry)
    (ta : Bool) (eslintConfigs : List String) :
    (analyzeDirectory env reg ta eslintConfigs).eslintConfigsWithoutOxlint
      = (analyzeLoop env reg ta (eslintConfigs.filter env.hasRulesOrOverrides)).2.2 := rfl

theorem analyzeLoop_without_mem (env : DirectoryEnv) (reg : OxlintRulesRegistry)
    (ta : Bool) :
    ∀ (l : List String) (c : String), c ∈ l →
      env.oxlintConfigExists (oxlintPathFor c) = false →
      c ∈ (analyzeLoop env reg ta l).2.2 := by
  intro l
  induction l with
  | nil => intro c hc; cases hc
  | cons a rest ih =>
    intro c hc hnox
    rcases List.mem_cons.mp hc with rfl | hc
    · simp [analyzeLoop, hnox]
    · by_cases hx : env.oxlintConfigExists (oxlintPathFor a) = true
      · simp only [analyzeLoop, hx, if_true]
        exact ih c hc hnox
      · simp only [Bool.not_eq_true] at hx
        simp only [analyzeLoop, hx, Bool.false_eq_true, if_false]
        exact List.mem_cons_of_mem a (ih c hc hnox)

theorem analyzeLoop_results_exists (env : DirectoryEnv) (reg : OxlintRulesRegistry)
    (ta : Bool) :
    ∀ (l : List String) (r : ReduceResult), r ∈ (analyzeLoop env reg ta l).1 →
      env.oxlintConfigExists (oxlintPathFor r.eslintConfigPath) = true := by
  intro l
  induction l with
  | nil => intro r hr; cases hr
  | cons a rest ih =>
    intro r hr
    by_cases hx : env.oxlintConfigExists (oxlintPathFor a) = true
    · simp only [analyzeLoop, hx, if_true] at hr
      rcases List.mem_cons.mp hr with rfl | hr
      · exact hx
      · exact ih r hr
    · simp only [Bool.not_eq_true] at hx
      simp only [analyzeLoop, hx, Bool.false_eq_true, if_false] at hr
      exact ih r hr

theorem analyzeLoop_results_filter (env : DirectoryEnv) (reg : OxlintRulesRegistry)
    (ta : Bool) :
    ∀ (l : List String),
      (analyzeLoop env reg ta l).1 =
        (analyzeLoop env reg ta
          (l.filter (fun p => env.oxlintConfigExists (oxlintPathFor p)))).1 := by
  intro l
  induction l with
  | nil => rfl
  | cons a rest ih =>
    by_cases hx : env.oxlintConfigExists (oxlintPathFor a) = true
    · simp only [analyzeLoop, List.filter_cons, hx, if_true]
      rw [ih]
    · simp only [Bool.not_eq_true] at hx
      simp only [analyzeLoop, List.filter_cons, hx, Bool.false_eq_true, if_false]
      exact ih

/-- Claim C9: a discovered config with meaningful rules but no
same-directory `.oxlintrc.json` is recorded in
`eslintConfigsWithoutOxlint`, contributes no per-file result, and
does not abort the run — the results are exactly those of analyzing
the configs that do have a paired oxlint config. -/
theorem claim_C9_configs_without_target (env : DirectoryEnv)
    (reg : OxlintRulesRegistry) (ta : Bool) (eslintConfigs : List String) (c : String)
    (hc : c ∈ eslintConfigs) (hmr : env.hasRulesOrOverrides c = true)
    (hnox : env.oxlintConfigExists (oxlintPathFor c) = false) :
    c ∈ (analyzeDirectory env reg ta eslintConfigs).eslintConfigsWithoutOxlint ∧
    (∀ r ∈ (analyzeDirectory env reg ta eslintConfigs).results,
      r.eslintConfigPath ≠ c) ∧
    (analyzeDirectory env reg ta eslintConfigs).results
      = (analyzeDirectory env reg ta (eslintConfigs.filter
          (fun p => env.oxlintConfigExists (oxlintPathFor p)))).results := by
  refine ⟨?_, ?_, ?_⟩
  · rw [analyzeDirectory_without]
    exact analyzeLoop_without_mem env reg ta _ c (List.mem_filter.mpr ⟨hc, hmr⟩) hnox
  · intro r hr heq
    rw [analyzeDirectory_results] at hr
    have := analyzeLoop_results_exists env reg ta _ r hr
    rw [heq, hnox] at this
    cases this
  · rw [analyzeDirectory_results, analyzeDirectory_results, List.filter_comm]
    exact analyzeLoop_results_filter env reg ta _

/-- Witness for C9: the config under `b` has no paired oxlint config
and is recorded in `eslintConfigsWithoutOxlint`. -/
theorem claim_C9_configs_without_target_witness :
    "b/.eslintrc.js" ∈ (analyzeDirectory wenv wreg true
      ["a/.eslintrc.js", "b/.eslintrc.js"]).eslintConfigsWithoutOxlint :=
  (claim_C9_configs_without_target wenv wreg true ["a/.eslintrc.js", "b/.eslintrc.js"]
    "b/.eslintrc.js" (by decide) rfl (by decide)).1

/-! ## Claim C8 — ancestor-aware deduplication of suggestions -/

theorem renderFilteredResults_eq (rs : List ReduceResult) :
    renderFilteredResults rs
      = processResults (allPluginsToDisable rs) (sortByPathDepth rs) (fun _ => []) := rfl

theorem processResults_cons (plugins : List String) (r : ReduceResult)
    (rest : List ReduceResult) (m : String → List String) :
    processResults plugins (r :: rest) m
      = filterOne plugins m r ::
          processResults plugins rest (recordOne m (filterOne plugins m r)) := rfl

theorem mem_ancestorRulesFor_iff {m : String → List String} {path x : String} :
    x ∈ ancestorRulesFor m path ↔ ∃ d ∈ ancestorJoins path, x ∈ m d := by
  unfold ancestorRulesFor
  have aux : ∀ (l : List String) (acc : List String),
      x ∈ l.foldl (fun acc d => acc ++ m d) acc ↔ x ∈ acc ∨ ∃ d ∈ l, x ∈ m d := by
    intro l
    induction l with
    | nil => simp
    | cons a rest ih =>
      intro acc
      simp only [List.foldl_cons, ih, List.mem_append, List.mem_cons]
      constructor
      · rintro ((h | h) | ⟨d2, h1, h2⟩)
        · exact Or.inl h
        · exact Or.inr ⟨a, Or.inl rfl, h⟩
        · exact Or.inr ⟨d2, Or.inr h1, h2⟩
      · rintro (h | ⟨d2, (rfl | h1), h2⟩)
        · exact Or.inl (Or.inl h)
        · exact Or.inl (Or.inr h2)
        · exact Or.inr ⟨d2, h1, h2⟩
  rw [aux]
  simp

theorem mem_stableInsert_iff {α : Type} {le : α → α → Bool} {a x : α} :
    ∀ {l : List α}, x ∈ stableInsert le a l ↔ x = a ∨ x ∈ l := by
  intro l
  induction l with
  | nil => simp [stableInsert]
  | cons b bs ih =>
    unfold stableInsert
    split_ifs with hc
    · simp
    · simp only [List.mem_cons, ih]
      tauto

/-- Stable insertion preserves sortedness for a transitive, total
comparison. -/
theorem pairwise_stableInsert {α : Type} (le : α → α → Bool)
    (htrans : ∀ a b c, le a b = true → le b c = true → le a c = true)
    (htotal : ∀ a b, (le a b || le b a) = true) (a : α) :
    ∀ (l : List α), List.Pairwise (fun x y => le x y = true) l →
      List.Pairwise (fun x y => le x y = true) (stableInsert le a l) := by
  intro l
  induction l with
  | nil => intro _; simp [stableInsert]
  | cons b bs ih =>
    intro h
    rcases List.pairwise_cons.mp h with ⟨hb, hbs⟩
    unfold stableInsert
    split_ifs with hc
    · refine List.pairwise_cons.mpr ⟨?_, h⟩
      intro c hcmem
      rcases List.mem_cons.mp hcmem with rfl | hcmem
      · exact hc
      · exact htrans a b c hc (hb c hcmem)
    · refine List.pairwise_cons.mpr ⟨?_, ih hbs⟩
      intro c hcmem
      rcases mem_stableInsert_iff.mp hcmem with hca | hcmem
      · rw [hca]
        have := htotal a b
        rw [Bool.or_eq_true] at this
        rcases this with h1 | h1
        · exact absurd h1 hc
        · exact h1
      · exact hb c hcmem

theorem pairwise_stableSort {α : Type} (le : α → α → Bool)
    (htrans : ∀ a b c, le a b = true → le b c = true → le a c = true)
    (htotal : ∀ a b, (le a b || le b a) = true) :
    ∀ (l : List α), List.Pairwise (fun x y => le x y = true) (stableSort le l) := by
  intro l
  induction l with
  | nil => simp [stableSort]
  | cons x xs ih => exact pairwise_stableInsert le htrans htotal x _ ih

/-- The depth sort produces a list that is pairwise ordered by path
depth. -/
theorem sortByPathDepth_sorted (rs : List ReduceResult) :
    List.Pairwise
      (fun a b => pathDepth a.eslintConfigPath ≤ pathDepth b.eslintConfigPath)
      (sortByPathDepth rs) := by
  have h := pairwise_stableSort
    (fun a b : ReduceResult =>
      decide (pathDepth a.eslintConfigPath ≤ pathDepth b.eslintConfigPath))
    (fun a b c hab hbc => by rw [decide_eq_true_eq] at hab hbc ⊢; omega)
    (fun a b => by rw [Bool.or_eq_true, decide_eq_true_eq, decide_eq_true_eq]; omega)
    rs
  exact h.imp (fun hab => by rwa [decide_eq_true_eq] at hab)

theorem recordOne_mono {m : String → List String} {fr : FilteredResult} {d x : String}
    (h : x ∈ m d) : x ∈ recordOne m fr d := by
  unfold recordOne
  split_ifs with hc
  · subst hc
    exact List.mem_append_left _ (List.mem_append_right _ h)
  · exact h

theorem recordOne_self {m : String → List String} {fr : FilteredResult} {x : String}
    (h : x ∈ fr.filteredRulesToRemove ∨ x ∈ fr.filteredInheritedRulesToDisable) :
    x ∈ recordOne m fr (getParentDir fr.base.eslintConfigPath) := by
  unfold recordOne
  rw [if_pos rfl]
  rcases h with h | h
  · exact List.mem_append_left _ (List.mem_append_left _ (List.mem_append_left _ h))
  · exact List.mem_append_left _ (List.mem_append_left _ (List.mem_append_right _ h))

/-- Any rule already recorded at an ancestor directory of a config is
filtered out of that config's listings and those of every later
config. -/
theorem processResults_excludes (plugins : List String) :
    ∀ (l : List ReduceResult) (m : String → List String) (e : FilteredResult),
      e ∈ processResults plugins l m →
      ∀ d ∈ ancestorJoins e.base.eslintConfigPath,
      ∀ (R : String), R ∈ m d →
      R ∉ e.filteredRulesToRemove ∧ R ∉ e.filteredInheritedRulesToDisable := by
  intro l
  induction l with
  | nil => intro m e he; cases he
  | cons r rest ih =>
    intro m e he d hd R hR
    rw [processResults_cons] at he
    rcases List.mem_cons.mp he with rfl | he
    · have hanc : R ∈ ancestorRulesFor m r.eslintConfigPath :=
        mem_ancestorRulesFor_iff.mpr ⟨d, hd, hR⟩
      constructor <;> intro hmem <;>
        · have hcont := (List.mem_filter.mp hmem).2
          rw [Bool.not_eq_true'] at hcont
          rw [contains_iff_mem.mpr hanc] at hcont
          cases hcont
    · exact ih (recordOne m (filterOne plugins m r)) e he d hd R (recordOne_mono hR)

/-- The core deduplication property over the processing order: a rule
listed for an earlier config is excluded from the listings of every
later config whose directory lies below the earlier config's
directory. -/
theorem processResults_dedup (plugins : List String) :
    ∀ (l : List ReduceResult) (m : String → List String) (i j : Nat), i < j →
      ∀ (fp fc : FilteredResult),
      (processResults plugins l m).get? i = some fp →
      (processResults plugins l m).get? j = some fc →
      ∀ (R : String),
      (R ∈ fp.filteredRulesToRemove ∨ R ∈ fp.filteredInheritedRulesToDisable) →
      getParentDir fp.base.eslintConfigPath ∈ ancestorJoins fc.base.eslintConfigPath →
      R ∉ fc.filteredRulesToRemove ∧ R ∉ fc.filteredInheritedRulesToDisable := by
  intro l
  induction l with
  | nil => intro m i j hij fp fc hi; rw [show processResults plugins [] m = [] from rfl] at hi; cases hi
  | cons r rest ih =>
    intro m i j hij fp fc hi hj R hR hanc
    rw [processResults_cons] at hi hj
    cases i with
    | zero =>
      have hfp : filterOne plugins m r = fp := by
        simpa using hi
      cases j with
      | zero => exact absurd hij (lt_irrefl 0)
      | succ j2 =>
        subst hfp
        have hcm : fc ∈ processResults plugins rest (recordOne m (filterOne plugins m r)) :=
          List.get?_mem hj
        exact processResults_excludes plugins rest _ fc hcm _ hanc R (recordOne_self hR)
    | succ i2 =>
      cases j with
      | zero => exact absurd hij (by omega)
      | succ j2 =>
        exact ih (recordOne m (filterOne plugins m r)) i2 j2 (by omega) fp fc hi hj R hR hanc

theorem processResults_get?_base (plugins : List String) :
    ∀ (l : List ReduceResult) (m : String → List String) (i : Nat) (e : FilteredResult),
      (processResults plugins l m).get? i = some e →
      ∃ r, l.get? i = some r ∧ e.base = r := by
  intro l
  induction l with
  | nil => intro m i e h; rw [show processResults plugins [] m = [] from rfl] at h; cases h
  | cons r rest ih =>
    intro m i e h
    rw [processResults_cons] at h
    cases i with
    | zero =>
      have he : filterOne plugins m r = e := by simpa using h
      exact ⟨r, rfl, by rw [← he]; rfl⟩
    | succ i2 =>
      exact ih (recordOne m (filterOne plugins m r)) i2 e h

/-- Claim C8: in the rendered report, a rule listed for a config in a
parent directory is filtered out of the removable and
inherited-removable listings of every config in a descendant
directory (the descendant relation is phrased with the report's own
depth key and ancestor-join enumeration: the child path is strictly
deeper and the parent's directory occurs among the child's ancestor
directories). -/
theorem claim_C8_ancestor_deduplication (rs : List ReduceResult)
    (fp fc : FilteredResult) (R : String)
    (hp : fp ∈ renderFilteredResults rs) (hc : fc ∈ renderFilteredResults rs)
    (hdepth : pathDepth fp.base.eslintConfigPath < pathDepth fc.base.eslintConfigPath)
    (hanc : getParentDir fp.base.eslintConfigPath ∈ ancestorJoins fc.base.eslintConfigPath)
    (hR : R ∈ fp.filteredRulesToRemove ∨ R ∈ fp.filteredInheritedRulesToDisable) :
    R ∉ fc.filteredRulesToRemove ∧ R ∉ fc.filteredInheritedRulesToDisable := by
  rw [renderFilteredResults_eq] at hp hc
  obtain ⟨i, hi⟩ := List.mem_iff_get?.mp hp
  obtain ⟨j, hj⟩ := List.mem_iff_get?.mp hc
  have hij : i < j := by
    by_contra hle
    push_neg at hle
    rcases Nat.eq_or_lt_of_le hle with heq | hlt
    · rw [← heq] at hi
      rw [hi] at hj
      have : fp = fc := by simpa using hj
      rw [← this] at hdepth
      exact lt_irrefl _ hdepth
    · obtain ⟨rp, hrp, hbp⟩ := processResults_get?_base _ _ _ i fp hi
      obtain ⟨rc, hrc, hbc⟩ := processResults_get?_base _ _ _ j fc hj
      have hsorted := sortByPathDepth_sorted rs
      rw [List.pairwise_iff_get] at hsorted
      obtain ⟨hjLen, hgetJ⟩ := List.get?_eq_some.mp hrc
      obtain ⟨hiLen, hgetI⟩ := List.get?_eq_some.mp hrp
      have hord := hsorted ⟨j, hjLen⟩ ⟨i, hiLen⟩ (Fin.mk_lt_mk.mpr hlt)
      rw [hgetI, hgetJ] at hord
      rw [hbp] at hdepth
      rw [hbc] at hdepth
      omega
  exact processResults_dedup _ _ _ i j hij fp fc hi hj R hR hanc

/-- Witness for C8: with the parent listing `no-console`, the child's
filtered listings exclude it. -/
theorem claim_C8_ancestor_deduplication_witness :
    "no-console" ∉ (⟨wchild, [], []⟩ : FilteredResult).filteredRulesToRemove ∧
    "no-console" ∉ (⟨wchild, [], []⟩ : FilteredResult).filteredInheritedRulesToDisable :=
  claim_C8_ancestor_deduplication [wparent, wchild]
    ⟨wparent, ["no-console"], []⟩ ⟨wchild, [], []⟩ "no-console"
    (by decide) (by decide) (by decide) (by decide) (Or.inl (by decide))

end EslintToOxlint
